import Mathlib

/-!
slo-plot: multi-window burn-rate alert curves.

A shallow embedding of `main.go` (`detectionTimeForErrorRate` and
`genSLOAlertPoints`) together with the properties of its specification.

Modelling conventions.

* `float64` values are modelled by exact rationals `ℚ`: every statement below is a
  statement about the algorithm under exact arithmetic (no rounding, no infinities,
  no NaN).
* `time.Duration` is an `int64` count of nanoseconds, modelled by `Int`; the integer
  division `w.Duration / time.Hour` truncates toward zero (`Int.tdiv`).
* A Go `map[string][]ThresholdData` is modelled by an association list with distinct
  keys.  `range` over a Go map visits the keys in an unspecified order, which may change
  from one loop to the next: the evaluator scans the list it is given, and the sampler
  receives the order of each of its calls as an argument `iter`.
-/

namespace SloPlot

/-- Nanoseconds in one minute: the constant `time.Minute` of the Go standard library. -/
def Minute : Int := 60 * 1000000000

/-- Nanoseconds in one hour: the constant `time.Hour` of the Go standard library. -/
def Hour : Int := 60 * Minute

/-- The `Window` struct of `main.go` (lines 18-22). -/
structure Window where
  Duration : Int
  BurnRate : ℚ
  Kind : String
deriving DecidableEq

/-- The `ThresholdData` struct of `main.go` (lines 146-149). -/
structure ThresholdData where
  ErrorThreshold : ℚ
  Duration : ℚ
deriving DecidableEq

/-- A `map[string][]ThresholdData`, as an association list. -/
abbrev ThresholdMap := List (String × List ThresholdData)

/-- Map read `m[k]`: the stored slice, or the nil slice when the key is absent. -/
def ThresholdMap.get (m : ThresholdMap) (k : String) : List ThresholdData :=
  match m with
  | [] => []
  | (k', v) :: rest => if k' = k then v else ThresholdMap.get rest k

/-- Map write `m[k] = v`: replaces the slice of an existing key, or adds the key. -/
def ThresholdMap.set (m : ThresholdMap) (k : String) (v : List ThresholdData) : ThresholdMap :=
  match m with
  | [] => [(k, v)]
  | (k', v') :: rest => if k' = k then (k, v) :: rest else (k', v') :: ThresholdMap.set rest k v

/-- The candidate detection time `v := th.ErrorThreshold / x` (line 158). -/
def candidate (x : ℚ) (th : ThresholdData) : ℚ := th.ErrorThreshold / x

/-- Body of the inner loop of `detectionTimeForErrorRate` (lines 158-165); the state is
the pair `(kind, value)`. -/
def detectStep (x : ℚ) (k : String) (acc : String × ℚ) (th : ThresholdData) : String × ℚ :=
  let v := th.ErrorThreshold / x
  if v > th.Duration then acc
  else if acc.2 = 0 ∨ acc.2 > v then (k, v)
  else acc

/-- The function `detectionTimeForErrorRate` (lines 151-170): the outer loop ranges over
the classes in the order of the list, the inner loop over the entries of a class. -/
def detectionTimeForErrorRate (thresholds : ThresholdMap) (x : ℚ) : String × ℚ :=
  thresholds.foldl (fun acc e => e.2.foldl (detectStep x e.1) acc) ("", 0)

/-- Lines 180-185 of `genSLOAlertPoints`: the threshold entry of one window. -/
def windowThreshold (errorBudget : ℚ) (w : Window) : ThresholdData :=
  let d : ℚ := ((w.Duration.tdiv Hour : Int) : ℚ)
  let v := w.BurnRate * errorBudget * d
  { ErrorThreshold := v, Duration := d }

/-- First loop of `genSLOAlertPoints` (lines 178-189): the threshold map. -/
def thresholdMap (errorBudget : ℚ) (windows : List Window) : ThresholdMap :=
  windows.foldl
    (fun m w => m.set w.Kind (m.get w.Kind ++ [windowThreshold errorBudget w]))
    []

/-- Number of points to plot (line 174). -/
def n : Nat := 1000

/-- The swept error rate of sample `i` (line 192): `math.Pow(0.995, (n-i-1)*2)`. -/
def sampleX (i : Nat) : ℚ := (995 / 1000 : ℚ) ^ ((n - i - 1) * 2)

/-- Body of the second loop of `genSLOAlertPoints` (lines 192-203); the state is the pair
`(ticket, page)` and `m` is the threshold map in the order this iteration ranges over. -/
def sampleStep (m : ThresholdMap) (i : Nat) (acc : List (ℚ × ℚ) × List (ℚ × ℚ)) :
    List (ℚ × ℚ) × List (ℚ × ℚ) :=
  let x := sampleX i
  let r := detectionTimeForErrorRate m x
  let p : ℚ × ℚ := (x * 100, r.2)
  if r.1 = "ticket" then (acc.1 ++ [p], acc.2)
  else if r.1 = "page" then (acc.1, acc.2 ++ [p])
  else acc

/-- The function `genSLOAlertPoints` (lines 172-207), returning `(ticket, page)`.
`iter i m` is the order in which the map `m` is ranged over by the call of sample `i`. -/
def genSLOAlertPoints (iter : Nat → ThresholdMap → ThresholdMap) (errorBudget : ℚ)
    (windows : List Window) : List (ℚ × ℚ) × List (ℚ × ℚ) :=
  let m := thresholdMap errorBudget windows
  (List.range n).foldl (fun acc i => sampleStep (iter i m) i acc) ([], [])

/-- The error budget computed by `main` (line 52): `1 - slo / 100` with `slo = 99.9`. -/
def referenceErrorBudget : ℚ := 1 - (999 / 10) / 100

/-- The window list passed by `main` (lines 52-73). -/
def referenceWindows : List Window :=
  [ { Duration := 1 * Hour, BurnRate := 144 / 10, Kind := "page" },
    { Duration := 6 * Hour, BurnRate := 6, Kind := "page" },
    { Duration := 24 * Hour, BurnRate := 3, Kind := "ticket" },
    { Duration := 72 * Hour, BurnRate := 1, Kind := "ticket" } ]

/-- The threshold map of the reference configuration. -/
def referenceMap : ThresholdMap := thresholdMap referenceErrorBudget referenceWindows

/-! ## Auxiliary notions used by the statements -/

/-- A candidate is accepted when it is not rejected by the test `v > th.Duration`. -/
def accepted (x : ℚ) (th : ThresholdData) : Prop := candidate x th ≤ th.Duration

instance (x : ℚ) (th : ThresholdData) : Decidable (accepted x th) := by
  unfold accepted candidate; infer_instance

/-- No two accepted candidates of different classes have equal value at `x`. -/
def noCrossClassTie (m : ThresholdMap) (x : ℚ) : Prop :=
  ∀ e1 ∈ m, ∀ e2 ∈ m, ∀ t1 ∈ e1.2, ∀ t2 ∈ e2.2,
    accepted x t1 → accepted x t2 → candidate x t1 = candidate x t2 → e1.1 = e2.1

instance (m : ThresholdMap) (x : ℚ) : Decidable (noCrossClassTie m x) := by
  unfold noCrossClassTie; infer_instance

/-- All `(class, entry)` pairs of a threshold map, in scan order. -/
def entriesOf (m : ThresholdMap) : List (String × ThresholdData) :=
  m.flatMap (fun e => e.2.map (fun th => (e.1, th)))

/-- The evaluator's step on a `(class, entry)` pair. -/
def pairStep (x : ℚ) (acc : String × ℚ) (c : String × ThresholdData) : String × ℚ :=
  detectStep x c.1 acc c.2

/-- The class returned for sample `i` when the map is ranged over in the order `m`. -/
def sampleKind (m : ThresholdMap) (i : Nat) : String :=
  (detectionTimeForErrorRate m (sampleX i)).1

/-- The point `(x * 100, value)` built for sample `i` (lines 195-197). -/
def samplePoint (m : ThresholdMap) (i : Nat) : ℚ × ℚ :=
  (sampleX i * 100, (detectionTimeForErrorRate m (sampleX i)).2)


/-! ## The evaluator as a single scan -/

theorem foldl_detectStep_map (x : ℚ) (k : String) (ths : List ThresholdData) (s : String × ℚ) :
    ths.foldl (detectStep x k) s = (ths.map (fun th => (k, th))).foldl (pairStep x) s := by
  induction ths generalizing s with
  | nil => rfl
  | cons th rest ih => simp only [List.foldl_cons, List.map_cons, ih]; rfl

theorem foldl_classes_eq (x : ℚ) (m : ThresholdMap) (s : String × ℚ) :
    m.foldl (fun acc e => e.2.foldl (detectStep x e.1) acc) s
      = (entriesOf m).foldl (pairStep x) s := by
  induction m generalizing s with
  | nil => rfl
  | cons e rest ih =>
    simp only [List.foldl_cons, entriesOf, List.flatMap_cons, List.foldl_append]
    rw [ih, foldl_detectStep_map]
    rfl

theorem detect_eq_foldl (m : ThresholdMap) (x : ℚ) :
    detectionTimeForErrorRate m x = (entriesOf m).foldl (pairStep x) ("", 0) :=
  foldl_classes_eq x m ("", 0)

theorem pairStep_rejected {x : ℚ} {s : String × ℚ} {c : String × ThresholdData}
    (h : ¬ accepted x c.2) : pairStep x s c = s := by
  have h1 : c.2.ErrorThreshold / x > c.2.Duration := by
    simpa [accepted, candidate] using h
  simp [pairStep, detectStep, h1]

theorem pairStep_take {x : ℚ} {s : String × ℚ} {c : String × ThresholdData}
    (h : accepted x c.2) (hs : s.2 = 0 ∨ s.2 > candidate x c.2) :
    pairStep x s c = (c.1, candidate x c.2) := by
  have h1 : ¬ c.2.ErrorThreshold / x > c.2.Duration := by
    simpa [accepted, candidate] using h
  have h2 : s.2 = 0 ∨ s.2 > c.2.ErrorThreshold / x := hs
  simp only [pairStep, detectStep, h1, h2, if_true, if_false, candidate]

theorem pairStep_keep {x : ℚ} {s : String × ℚ} {c : String × ThresholdData}
    (hs : ¬ (s.2 = 0 ∨ s.2 > candidate x c.2)) : pairStep x s c = s := by
  have h2 : ¬ (s.2 = 0 ∨ s.2 > c.2.ErrorThreshold / x) := hs
  simp only [pairStep, detectStep, h2, if_false, ite_self]

/-- Outcome of a scan started from the unset state, when every accepted candidate is
positive: either nothing was accepted and the state is still unset, or the state is an
accepted candidate of least value. -/
theorem foldl_pairStep_spec (x : ℚ) (cs : List (String × ThresholdData))
    (hpos : ∀ c ∈ cs, accepted x c.2 → 0 < candidate x c.2) :
    ((∀ c ∈ cs, ¬ accepted x c.2) ∧ cs.foldl (pairStep x) ("", 0) = ("", 0)) ∨
    ((∃ c ∈ cs, accepted x c.2 ∧ cs.foldl (pairStep x) ("", 0) = (c.1, candidate x c.2)) ∧
      ∀ c ∈ cs, accepted x c.2 → (cs.foldl (pairStep x) ("", 0)).2 ≤ candidate x c.2) := by
  induction cs using List.reverseRecOn with
  | nil => left; simp
  | append_singleton l c ih =>
    have hposl : ∀ c ∈ l, accepted x c.2 → 0 < candidate x c.2 :=
      fun c' hc' => hpos c' (List.mem_append_left _ hc')
    have hc : accepted x c.2 → 0 < candidate x c.2 := hpos c (by simp)
    rw [List.foldl_append, List.foldl_cons, List.foldl_nil]
    by_cases hacc : accepted x c.2
    · right
      rcases ih hposl with ⟨hnone, hr⟩ | ⟨⟨c0, hc0, hacc0, hr⟩, hmin⟩
      · rw [hr, pairStep_take hacc (Or.inl rfl)]
        refine ⟨⟨c, by simp, hacc, rfl⟩, ?_⟩
        intro c' hc' hacc'
        rcases List.mem_append.1 hc' with h | h
        · exact absurd hacc' (hnone c' h)
        · simp only [List.mem_singleton] at h
          subst h
          exact le_refl _
      · by_cases hlt : candidate x c0.2 > candidate x c.2
        · have htake : pairStep x (l.foldl (pairStep x) ("", 0)) c = (c.1, candidate x c.2) :=
            pairStep_take hacc (Or.inr (by rw [hr]; exact hlt))
          rw [htake]
          refine ⟨⟨c, by simp, hacc, rfl⟩, ?_⟩
          intro c' hc' hacc'
          rcases List.mem_append.1 hc' with h | h
          · have := hmin c' h hacc'
            rw [hr] at this
            exact le_trans (le_of_lt hlt) this
          · simp only [List.mem_singleton] at h
            subst h
            exact le_refl _
        · have h0 : 0 < candidate x c0.2 := hposl c0 hc0 hacc0
          have hkeep : pairStep x (l.foldl (pairStep x) ("", 0)) c
              = l.foldl (pairStep x) ("", 0) := by
            apply pairStep_keep
            rw [hr]
            rintro (h | h)
            · exact (ne_of_gt h0) h
            · exact hlt h
          rw [hkeep]
          refine ⟨⟨c0, List.mem_append_left _ hc0, hacc0, hr⟩, ?_⟩
          intro c' hc' hacc'
          rcases List.mem_append.1 hc' with h | h
          · exact hmin c' h hacc'
          · simp only [List.mem_singleton] at h
            subst h
            rw [hr]
            exact not_lt.1 hlt
    · rw [pairStep_rejected hacc]
      rcases ih hposl with ⟨hnone, hr⟩ | ⟨⟨c0, hc0, hacc0, hr⟩, hmin⟩
      · left
        refine ⟨?_, hr⟩
        intro c' hc'
        rcases List.mem_append.1 hc' with h | h
        · exact hnone c' h
        · simp only [List.mem_singleton] at h
          subst h
          exact hacc
      · right
        refine ⟨⟨c0, List.mem_append_left _ hc0, hacc0, hr⟩, ?_⟩
        intro c' hc' hacc'
        rcases List.mem_append.1 hc' with h | h
        · exact hmin c' h hacc'
        · simp only [List.mem_singleton] at h
          subst h
          exact absurd hacc' hacc

theorem mem_entriesOf {m : ThresholdMap} {c : String × ThresholdData} :
    c ∈ entriesOf m ↔ ∃ e ∈ m, e.1 = c.1 ∧ c.2 ∈ e.2 := by
  simp only [entriesOf, List.mem_flatMap, List.mem_map]
  constructor
  · rintro ⟨e, he, th, hth, rfl⟩
    exact ⟨e, he, rfl, hth⟩
  · rintro ⟨e, he, h1, h2⟩
    exact ⟨e, he, c.2, h2, by rw [h1]⟩

theorem entriesOf_perm {m m' : ThresholdMap} (h : m'.Perm m) :
    (entriesOf m').Perm (entriesOf m) :=
  List.Perm.flatMap_right _ h

theorem candidate_pos {x : ℚ} {th : ThresholdData} (hx : 0 < x) (h : 0 < th.ErrorThreshold) :
    0 < candidate x th := div_pos h hx

/-- Outcome of `detectionTimeForErrorRate` when every accepted candidate is positive. -/
theorem detect_spec (m : ThresholdMap) (x : ℚ)
    (hpos : ∀ c ∈ entriesOf m, accepted x c.2 → 0 < candidate x c.2) :
    ((∀ c ∈ entriesOf m, ¬ accepted x c.2) ∧ detectionTimeForErrorRate m x = ("", 0)) ∨
    ((∃ c ∈ entriesOf m, accepted x c.2 ∧
        detectionTimeForErrorRate m x = (c.1, candidate x c.2)) ∧
      ∀ c ∈ entriesOf m, accepted x c.2 →
        (detectionTimeForErrorRate m x).2 ≤ candidate x c.2) := by
  rw [detect_eq_foldl]
  exact foldl_pairStep_spec x (entriesOf m) hpos

theorem entries_pos {m : ThresholdMap} {x : ℚ} (hx : 0 < x)
    (hT : ∀ e ∈ m, ∀ th ∈ e.2, 0 < th.ErrorThreshold) :
    ∀ c ∈ entriesOf m, accepted x c.2 → 0 < candidate x c.2 := by
  intro c hc _
  obtain ⟨e, he, _, hth⟩ := mem_entriesOf.1 hc
  exact candidate_pos hx (hT e he c.2 hth)

/-! ## The detection-time evaluator -/

/-- C10. A candidate that passes the duration test replaces the running best exactly when
the running best is `0` or strictly greater than the candidate.  Hence, for one class with
entries `[e0, e1]` where `e0.ErrorThreshold = 0`, `e0.Duration ≥ 0` and `e1` is accepted
with a positive candidate, the function returns the positive candidate of `e1` although
the accepted candidate of `e0` is `0`, and scanning `[e1, e0]` returns `0`. -/
theorem zero_is_unset_sentinel (x : ℚ) (k : String) (e0 e1 : ThresholdData) (_hx : 0 < x)
    (h0 : e0.ErrorThreshold = 0) (hd : 0 ≤ e0.Duration) (hacc : accepted x e1)
    (hpos : 0 < candidate x e1) :
    (∀ (acc : String × ℚ) (k' : String) (th : ThresholdData), accepted x th →
      ((acc.2 = 0 ∨ acc.2 > candidate x th) → detectStep x k' acc th = (k', candidate x th)) ∧
      (¬ (acc.2 = 0 ∨ acc.2 > candidate x th) → detectStep x k' acc th = acc)) ∧
    accepted x e0 ∧ candidate x e0 = 0 ∧
    detectionTimeForErrorRate [(k, [e0, e1])] x = (k, candidate x e1) ∧
    detectionTimeForErrorRate [(k, [e1, e0])] x = (k, 0) := by
  have hc0 : candidate x e0 = 0 := by simp [candidate, h0]
  have hacc0 : accepted x e0 := by
    show candidate x e0 ≤ e0.Duration
    rw [hc0]; exact hd
  refine ⟨?_, hacc0, hc0, ?_, ?_⟩
  · intro acc k' th hth
    exact ⟨fun h => pairStep_take (c := (k', th)) hth h,
      fun h => pairStep_keep (c := (k', th)) h⟩
  · have s1 : detectStep x k ("", 0) e0 = (k, 0) := by
      have := pairStep_take (s := ("", 0)) (c := (k, e0)) hacc0 (Or.inl rfl)
      rw [hc0] at this
      exact this
    have s2 : detectStep x k (k, 0) e1 = (k, candidate x e1) :=
      pairStep_take (s := (k, 0)) (c := (k, e1)) hacc (Or.inl rfl)
    simp only [detectionTimeForErrorRate, List.foldl_cons, List.foldl_nil, s1, s2]
  · have s1 : detectStep x k ("", 0) e1 = (k, candidate x e1) :=
      pairStep_take (s := ("", 0)) (c := (k, e1)) hacc (Or.inl rfl)
    have s2 : detectStep x k (k, candidate x e1) e0 = (k, 0) := by
      have := pairStep_take (s := (k, candidate x e1)) (c := (k, e0)) hacc0
        (Or.inr (by rw [hc0]; exact hpos))
      rw [hc0] at this
      exact this
    simp only [detectionTimeForErrorRate, List.foldl_cons, List.foldl_nil, s1, s2]

/-! ## The sweep schedule -/

theorem sampleX_pos (i : Nat) : 0 < sampleX i := by
  unfold sampleX
  positivity

theorem sampleX_lt {i j : Nat} (hij : i < j) (hj : j < n) : sampleX i < sampleX j := by
  unfold sampleX
  apply pow_lt_pow_right_of_lt_one₀ (by norm_num) (by norm_num)
  omega

theorem sampleX_le_one (i : Nat) : sampleX i ≤ 1 := by
  unfold sampleX
  exact pow_le_one₀ (by norm_num) (by norm_num)

/-- C8. With `n = 1000` and `x_i = 0.995 ^ (2 * (n - i - 1))`, the samples
`x_0, ..., x_{n-1}` are strictly increasing, each satisfies `0 < x_i ≤ 1`, and
`x_{n-1} = 1`. -/
theorem sweep_schedule :
    n = 1000 ∧
    (∀ i : Nat, sampleX i = (995 / 1000 : ℚ) ^ (2 * (n - i - 1))) ∧
    (∀ i j : Nat, i < j → j < n → sampleX i < sampleX j) ∧
    (∀ i : Nat, i < n → 0 < sampleX i ∧ sampleX i ≤ 1) ∧
    sampleX (n - 1) = 1 := by
  refine ⟨rfl, ?_, fun i j hij hj => sampleX_lt hij hj,
    fun i _ => ⟨sampleX_pos i, sampleX_le_one i⟩, ?_⟩
  · intro i
    unfold sampleX
    rw [Nat.mul_comm]
  · simp [sampleX, n]

/-! ## Duration conversion -/

/-- C5. The code divides the nanosecond count by `time.Hour` as integers before converting
to a float: a 90-minute window gets `d = 1` (not `1.5`) and a 30-minute window gets `d = 0`
(not `0.5`), whatever the burn rate, the error budget and the class. -/
theorem duration_conversion_truncates (errorBudget burnRate : ℚ) (kind : String) :
    (windowThreshold errorBudget ⟨90 * Minute, burnRate, kind⟩).Duration = 1 ∧
    (windowThreshold errorBudget ⟨30 * Minute, burnRate, kind⟩).Duration = 0 ∧
    ((90 * Minute : Int) : ℚ) / (3600 * 10 ^ 9) = 3 / 2 ∧
    ((30 * Minute : Int) : ℚ) / (3600 * 10 ^ 9) = 1 / 2 ∧
    thresholdMap 1 [⟨90 * Minute, 1, "page"⟩] = [("page", [⟨1, 1⟩])] := by
  have h90 : (90 * Minute).tdiv Hour = 1 := by decide
  have h30 : (30 * Minute).tdiv Hour = 0 := by decide
  refine ⟨?_, ?_, ?_, ?_, ?_⟩
  · simp [windowThreshold, h90]
  · simp [windowThreshold, h30]
  · norm_num [Minute]
  · norm_num [Minute]
  · simp [thresholdMap, ThresholdMap.set, ThresholdMap.get, windowThreshold, h90]

/-! ## The sampler -/

theorem foldl_sampleStep (ms : Nat → ThresholdMap) (l : List Nat)
    (acc : List (ℚ × ℚ) × List (ℚ × ℚ)) :
    l.foldl (fun acc i => sampleStep (ms i) i acc) acc =
      (acc.1 ++ (l.filter (fun i => sampleKind (ms i) i = "ticket")).map
          (fun i => samplePoint (ms i) i),
       acc.2 ++ (l.filter (fun i => sampleKind (ms i) i = "page")).map
          (fun i => samplePoint (ms i) i)) := by
  induction l generalizing acc with
  | nil => simp
  | cons i rest ih =>
    rw [List.foldl_cons, ih]
    by_cases ht : sampleKind (ms i) i = "ticket"
    · have hp : ¬ sampleKind (ms i) i = "page" := by rw [ht]; decide
      have hs : sampleStep (ms i) i acc = (acc.1 ++ [samplePoint (ms i) i], acc.2) := by
        have ht' : (detectionTimeForErrorRate (ms i) (sampleX i)).1 = "ticket" := ht
        simp only [sampleStep, ht', if_true]
        rfl
      simp [hs, ht, hp, List.filter_cons]
    · by_cases hp : sampleKind (ms i) i = "page"
      · have hs : sampleStep (ms i) i acc = (acc.1, acc.2 ++ [samplePoint (ms i) i]) := by
          have ht' : ¬ (detectionTimeForErrorRate (ms i) (sampleX i)).1 = "ticket" := ht
          have hp' : (detectionTimeForErrorRate (ms i) (sampleX i)).1 = "page" := hp
          simp only [sampleStep, ht', hp', if_true, if_false]
          rfl
        simp [hs, ht, hp, List.filter_cons]
      · have hs : sampleStep (ms i) i acc = acc := by
          have ht' : ¬ (detectionTimeForErrorRate (ms i) (sampleX i)).1 = "ticket" := ht
          have hp' : ¬ (detectionTimeForErrorRate (ms i) (sampleX i)).1 = "page" := hp
          simp only [sampleStep, ht', hp', if_false]
        simp [hs, ht, hp, List.filter_cons]

/-- The two sequences returned by `genSLOAlertPoints`, as filtered images of the sample
indices `0, ..., n-1`. -/
theorem genSLOAlertPoints_eq (iter : Nat → ThresholdMap → ThresholdMap) (errorBudget : ℚ)
    (windows : List Window) :
    genSLOAlertPoints iter errorBudget windows =
      (((List.range n).filter (fun i =>
          sampleKind (iter i (thresholdMap errorBudget windows)) i = "ticket")).map
          (fun i => samplePoint (iter i (thresholdMap errorBudget windows)) i),
       ((List.range n).filter (fun i =>
          sampleKind (iter i (thresholdMap errorBudget windows)) i = "page")).map
          (fun i => samplePoint (iter i (thresholdMap errorBudget windows)) i)) := by
  unfold genSLOAlertPoints
  simp only []
  rw [foldl_sampleStep (fun i => iter i (thresholdMap errorBudget windows))]
  simp

theorem foldl_pairStep_kind (x : ℚ) (cs : List (String × ThresholdData)) (s : String × ℚ) :
    (cs.foldl (pairStep x) s).1 = s.1 ∨ ∃ c ∈ cs, c.1 = (cs.foldl (pairStep x) s).1 := by
  induction cs generalizing s with
  | nil => left; rfl
  | cons c rest ih =>
    rw [List.foldl_cons]
    rcases ih (pairStep x s c) with h | ⟨c', hc', h⟩
    · have hstep : pairStep x s c = s ∨ pairStep x s c = (c.1, candidate x c.2) := by
        by_cases hacc : accepted x c.2
        · by_cases hs : s.2 = 0 ∨ s.2 > candidate x c.2
          · exact Or.inr (pairStep_take hacc hs)
          · exact Or.inl (pairStep_keep hs)
        · exact Or.inl (pairStep_rejected hacc)
      rcases hstep with h' | h'
      · left; rw [h, h']
      · right
        refine ⟨c, by simp, ?_⟩
        rw [h, h']
    · exact Or.inr ⟨c', List.mem_cons_of_mem _ hc', h⟩

/-- The class returned by the evaluator is the empty class or a key of the map. -/
theorem detect_kind_mem (m : ThresholdMap) (x : ℚ) :
    (detectionTimeForErrorRate m x).1 = "" ∨
      ∃ e ∈ m, e.1 = (detectionTimeForErrorRate m x).1 := by
  rw [detect_eq_foldl]
  rcases foldl_pairStep_kind x (entriesOf m) ("", 0) with h | ⟨c, hc, h⟩
  · exact Or.inl h
  · obtain ⟨e, he, hk, _⟩ := mem_entriesOf.1 hc
    exact Or.inr ⟨e, he, by rw [hk, h]⟩

/-! ## The reference configuration -/

theorem accepted_iff {x : ℚ} (hx : 0 < x) (th : ThresholdData) :
    accepted x th ↔ th.ErrorThreshold ≤ th.Duration * x := by
  unfold accepted candidate
  exact div_le_iff₀ hx

theorem entriesOf_referenceMap :
    entriesOf referenceMap =
      [("page", ⟨144 / 10000, 1⟩), ("page", ⟨36 / 1000, 6⟩),
       ("ticket", ⟨72 / 1000, 24⟩), ("ticket", ⟨72 / 1000, 72⟩)] := by
  decide!

theorem mem_entries_reference {m : ThresholdMap} (hm : m.Perm referenceMap)
    (c : String × ThresholdData) :
    c ∈ entriesOf m ↔
      c = ("page", ⟨144 / 10000, 1⟩) ∨ c = ("page", ⟨36 / 1000, 6⟩) ∨
      c = ("ticket", ⟨72 / 1000, 24⟩) ∨ c = ("ticket", ⟨72 / 1000, 72⟩) := by
  rw [(entriesOf_perm hm).mem_iff, entriesOf_referenceMap]
  simp

theorem reference_entries_pos {m : ThresholdMap} (hm : m.Perm referenceMap) {x : ℚ}
    (hx : 0 < x) : ∀ c ∈ entriesOf m, accepted x c.2 → 0 < candidate x c.2 := by
  intro c hc _
  apply candidate_pos hx
  rcases (mem_entries_reference hm c).1 hc with h | h | h | h <;> subst h <;> norm_num

/-- Evaluator on the reference map (in any order), rate below every burn-rate fraction. -/
theorem reference_none {m : ThresholdMap} (hm : m.Perm referenceMap) {x : ℚ}
    (hx : 0 < x) (h1 : x < 1 / 1000) : detectionTimeForErrorRate m x = ("", 0) := by
  rcases detect_spec m x (reference_entries_pos hm hx) with ⟨_, hr⟩ | ⟨⟨c, hc, hacc, _⟩, _⟩
  · exact hr
  · exfalso
    rw [accepted_iff hx] at hacc
    rcases (mem_entries_reference hm c).1 hc with h | h | h | h <;> subst h <;>
      simp only at hacc <;> linarith

/-- Evaluator on the reference map (in any order), rate in `[0.001, 0.006)`. -/
theorem reference_ticket {m : ThresholdMap} (hm : m.Perm referenceMap) {x : ℚ}
    (h1 : 1 / 1000 ≤ x) (h2 : x < 6 / 1000) :
    detectionTimeForErrorRate m x = ("ticket", (72 / 1000) / x) := by
  have hx : 0 < x := by linarith
  rcases detect_spec m x (reference_entries_pos hm hx) with ⟨hnone, _⟩ | ⟨⟨c, hc, hacc, hr⟩, _⟩
  · exfalso
    apply hnone ("ticket", ⟨72 / 1000, 72⟩)
      ((mem_entries_reference hm _).2 (Or.inr (Or.inr (Or.inr rfl))))
    rw [accepted_iff hx]
    simp only
    linarith
  · rw [accepted_iff hx] at hacc
    rcases (mem_entries_reference hm c).1 hc with h | h | h | h <;> subst h <;>
      simp only at hacc
    · linarith
    · linarith
    · exact hr
    · exact hr

/-- Evaluator on the reference map (in any order), rate in `[0.006, 0.0144)`. -/
theorem reference_page_six {m : ThresholdMap} (hm : m.Perm referenceMap) {x : ℚ}
    (h1 : 6 / 1000 ≤ x) (h2 : x < 144 / 10000) :
    detectionTimeForErrorRate m x = ("page", (36 / 1000) / x) := by
  have hx : 0 < x := by linarith
  rcases detect_spec m x (reference_entries_pos hm hx) with
    ⟨hnone, _⟩ | ⟨⟨c, hc, hacc, hr⟩, hmin⟩
  · exfalso
    apply hnone ("page", ⟨36 / 1000, 6⟩)
      ((mem_entries_reference hm _).2 (Or.inr (Or.inl rfl)))
    rw [accepted_iff hx]
    simp only
    linarith
  · have hp : accepted x (⟨36 / 1000, 6⟩ : ThresholdData) := by
      rw [accepted_iff hx]
      simp only
      linarith
    have hle := hmin ("page", ⟨36 / 1000, 6⟩)
      ((mem_entries_reference hm _).2 (Or.inr (Or.inl rfl))) hp
    rw [hr] at hle
    have hlt : (36 / 1000 : ℚ) / x < (72 / 1000) / x :=
      div_lt_div_of_pos_right (by norm_num) hx
    rw [accepted_iff hx] at hacc
    rcases (mem_entries_reference hm c).1 hc with h | h | h | h <;> subst h <;>
      simp only [candidate] at hacc hle
    · linarith
    · exact hr
    · linarith
    · linarith

/-- Evaluator on the reference map (in any order), rate at least `0.0144`. -/
theorem reference_page_one {m : ThresholdMap} (hm : m.Perm referenceMap) {x : ℚ}
    (h1 : 144 / 10000 ≤ x) :
    detectionTimeForErrorRate m x = ("page", (144 / 10000) / x) := by
  have hx : 0 < x := by linarith
  rcases detect_spec m x (reference_entries_pos hm hx) with
    ⟨hnone, _⟩ | ⟨⟨c, hc, hacc, hr⟩, hmin⟩
  · exfalso
    apply hnone ("page", ⟨144 / 10000, 1⟩)
      ((mem_entries_reference hm _).2 (Or.inl rfl))
    rw [accepted_iff hx]
    simp only
    linarith
  · have hp : accepted x (⟨144 / 10000, 1⟩ : ThresholdData) := by
      rw [accepted_iff hx]
      simp only
      linarith
    have hle := hmin ("page", ⟨144 / 10000, 1⟩)
      ((mem_entries_reference hm _).2 (Or.inl rfl)) hp
    rw [hr] at hle
    have hlt1 : (144 / 10000 : ℚ) / x < (36 / 1000) / x :=
      div_lt_div_of_pos_right (by norm_num) hx
    have hlt2 : (144 / 10000 : ℚ) / x < (72 / 1000) / x :=
      div_lt_div_of_pos_right (by norm_num) hx
    rcases (mem_entries_reference hm c).1 hc with h | h | h | h <;> subst h <;>
      simp only [candidate] at hle
    · exact hr
    · linarith
    · linarith
    · linarith

theorem sampleX_zero_small : sampleX 0 < 1 / 1000 := by decide!

theorem sampleX_zero_eq : sampleX 0 = (995 / 1000 : ℚ) ^ 1998 := by
  unfold sampleX
  congr 1

theorem sampleX_last : sampleX 999 = 1 := by simp [sampleX, n]

theorem length_filter_ticket_page (f : Nat → String) (l : List Nat) :
    (l.filter (fun i => f i = "ticket")).length + (l.filter (fun i => f i = "page")).length
      = (l.filter (fun i => f i = "ticket" ∨ f i = "page")).length := by
  induction l with
  | nil => rfl
  | cons a rest ih =>
    by_cases ht : f a = "ticket"
    · simp only [List.filter_cons, ht]
      simp only [List.length_cons, decide_True, if_true, true_or]
      have : decide ("ticket" = "page") = false := by decide
      simp only [this, Bool.false_eq_true, if_false]
      omega
    · by_cases hp : f a = "page"
      · simp only [List.filter_cons, hp]
        simp only [List.length_cons, decide_True, if_true, or_true]
        have : decide ("page" = "ticket") = false := by decide
        simp only [this, Bool.false_eq_true, if_false]
        omega
      · simp only [List.filter_cons, ht, hp, decide_False, or_self, Bool.false_eq_true,
          if_false]
        exact ih

/-- C6 fails as stated: with the single window `(1h, 1, "warn")` and error budget `1`, the
last sample (`x = 1`) is detected by class `warn` with value `1`, yet both returned
sequences are empty, so the number of points differs from the number of detected
samples. -/
theorem detected_sample_dropped :
    detectionTimeForErrorRate (thresholdMap 1 [⟨Hour, 1, "warn"⟩]) (sampleX 999) = ("warn", 1) ∧
    genSLOAlertPoints (fun _ m => m) 1 [⟨Hour, 1, "warn"⟩] = ([], []) ∧
    (genSLOAlertPoints (fun _ m => m) 1 [⟨Hour, 1, "warn"⟩]).1.length +
      (genSLOAlertPoints (fun _ m => m) 1 [⟨Hour, 1, "warn"⟩]).2.length ≠
      ((List.range n).filter (fun i =>
        sampleKind (thresholdMap 1 [⟨Hour, 1, "warn"⟩]) i ≠ "")).length := by
  have hm : thresholdMap 1 [⟨Hour, 1, "warn"⟩] = [("warn", [⟨1, 1⟩])] := by decide!
  have hd : detectionTimeForErrorRate [("warn", [⟨1, 1⟩])] (sampleX 999) = ("warn", 1) := by
    rw [sampleX_last]; decide!
  have hkind : ∀ i, sampleKind [("warn", [⟨1, 1⟩])] i = "" ∨
      sampleKind [("warn", [⟨1, 1⟩])] i = "warn" := by
    intro i
    rcases detect_kind_mem [("warn", [⟨1, 1⟩])] (sampleX i) with h | ⟨e, he, h⟩
    · exact Or.inl h
    · simp only [List.mem_singleton] at he
      subst he
      exact Or.inr h.symm
  have hgen : genSLOAlertPoints (fun _ m => m) 1 [⟨Hour, 1, "warn"⟩] = ([], []) := by
    rw [genSLOAlertPoints_eq, hm]
    have h1 : (List.range n).filter
        (fun i => sampleKind [("warn", [⟨1, 1⟩])] i = "ticket") = [] := by
      rw [List.filter_eq_nil_iff]
      intro i _
      rcases hkind i with h | h <;> rw [h] <;> decide
    have h2 : (List.range n).filter
        (fun i => sampleKind [("warn", [⟨1, 1⟩])] i = "page") = [] := by
      rw [List.filter_eq_nil_iff]
      intro i _
      rcases hkind i with h | h <;> rw [h] <;> decide
    rw [h1, h2]
    rfl
  refine ⟨by rw [hm]; exact hd, hgen, ?_⟩
  rw [hgen, hm]
  have hmem : 999 ∈ (List.range n).filter
      (fun i => sampleKind [("warn", [⟨1, 1⟩])] i ≠ "") := by
    rw [List.mem_filter]
    refine ⟨by simp [n], ?_⟩
    have : sampleKind [("warn", [⟨1, 1⟩])] 999 = "warn" := by
      unfold sampleKind; rw [hd]
    rw [this]; decide
  have hpos := List.length_pos_of_mem hmem
  simp only [List.length_nil]
  omega

/-- C6 (amended). For every error budget, window list and map order: the ticket sequence
consists of the points `(100 * x_i, v_i)` of exactly the samples whose returned class is
`ticket`, in ascending sample index, and likewise the page sequence for class `page`;
a sample whose returned class is anything else (no class, or another label) contributes
to no sequence; hence the total number of points equals the number of samples at which the
returned class is `ticket` or `page`. -/
theorem ticket_page_samples_reach_sequences (iter : Nat → ThresholdMap → ThresholdMap)
    (errorBudget : ℚ) (windows : List Window) :
    (genSLOAlertPoints iter errorBudget windows).1 =
      ((List.range n).filter (fun i =>
          sampleKind (iter i (thresholdMap errorBudget windows)) i = "ticket")).map
        (fun i => (100 * sampleX i,
          (detectionTimeForErrorRate (iter i (thresholdMap errorBudget windows))
            (sampleX i)).2)) ∧
    (genSLOAlertPoints iter errorBudget windows).2 =
      ((List.range n).filter (fun i =>
          sampleKind (iter i (thresholdMap errorBudget windows)) i = "page")).map
        (fun i => (100 * sampleX i,
          (detectionTimeForErrorRate (iter i (thresholdMap errorBudget windows))
            (sampleX i)).2)) ∧
    (genSLOAlertPoints iter errorBudget windows).1.length +
      (genSLOAlertPoints iter errorBudget windows).2.length =
      ((List.range n).filter (fun i =>
        sampleKind (iter i (thresholdMap errorBudget windows)) i = "ticket" ∨
        sampleKind (iter i (thresholdMap errorBudget windows)) i = "page")).length := by
  have hpt : ∀ m : ThresholdMap, ∀ i : Nat, samplePoint m i =
      (100 * sampleX i, (detectionTimeForErrorRate m (sampleX i)).2) := by
    intro m i
    unfold samplePoint
    rw [mul_comm]
  have hgen := genSLOAlertPoints_eq iter errorBudget windows
  simp only [hpt] at hgen
  refine ⟨by rw [hgen], by rw [hgen], ?_⟩
  rw [hgen]
  simp only [List.length_map]
  exact length_filter_ticket_page
    (fun i => sampleKind (iter i (thresholdMap errorBudget windows)) i) (List.range n)

/-! ## Threshold derivation -/

theorem get_set_same (m : ThresholdMap) (k : String) (v : List ThresholdData) :
    (m.set k v).get k = v := by
  induction m with
  | nil => simp [ThresholdMap.set, ThresholdMap.get]
  | cons e rest ih =>
    obtain ⟨k', v'⟩ := e
    by_cases h : k' = k
    · simp [ThresholdMap.set, ThresholdMap.get, h]
    · simp [ThresholdMap.set, ThresholdMap.get, h, ih]

theorem get_set_other (m : ThresholdMap) {k k' : String} (v : List ThresholdData)
    (hk : k' ≠ k) : (m.set k v).get k' = m.get k' := by
  induction m with
  | nil => simp [ThresholdMap.set, ThresholdMap.get, hk.symm]
  | cons e rest ih =>
    obtain ⟨k0, v0⟩ := e
    by_cases h : k0 = k
    · have h' : ¬ k0 = k' := by rw [h]; exact fun h2 => hk h2.symm
      simp [ThresholdMap.set, ThresholdMap.get, h, h', hk.symm]
    · by_cases h2 : k0 = k'
      · subst h2
        simp [ThresholdMap.set, ThresholdMap.get, h]
      · simp [ThresholdMap.set, ThresholdMap.get, h, h2, ih]

theorem mem_keys_set (m : ThresholdMap) (k k' : String) (v : List ThresholdData) :
    k' ∈ (m.set k v).map Prod.fst ↔ k' = k ∨ k' ∈ m.map Prod.fst := by
  induction m with
  | nil => simp [ThresholdMap.set]
  | cons e rest ih =>
    obtain ⟨k0, v0⟩ := e
    by_cases h : k0 = k
    · subst h
      simp [ThresholdMap.set]
    · simp only [ThresholdMap.set, h, if_false, List.map_cons, List.mem_cons, ih]
      tauto

theorem nodup_keys_set (m : ThresholdMap) (k : String) (v : List ThresholdData)
    (h : (m.map Prod.fst).Nodup) : ((m.set k v).map Prod.fst).Nodup := by
  induction m with
  | nil => simp [ThresholdMap.set]
  | cons e rest ih =>
    obtain ⟨k0, v0⟩ := e
    simp only [List.map_cons, List.nodup_cons] at h
    by_cases hk : k0 = k
    · subst hk
      simp only [ThresholdMap.set, if_true, List.map_cons, List.nodup_cons]
      exact h
    · simp only [ThresholdMap.set, hk, if_false, List.map_cons, List.nodup_cons]
      refine ⟨?_, ih h.2⟩
      rw [mem_keys_set]
      rintro (h1 | h1)
      · exact hk h1
      · exact h.1 h1

/-- In a map with distinct keys, the pairs are exactly the keys with their stored slice. -/
theorem mem_iff_get (m : ThresholdMap) (h : (m.map Prod.fst).Nodup) (k : String)
    (ths : List ThresholdData) :
    (k, ths) ∈ m ↔ k ∈ m.map Prod.fst ∧ m.get k = ths := by
  induction m with
  | nil => simp
  | cons e rest ih =>
    obtain ⟨k0, v0⟩ := e
    simp only [List.map_cons, List.nodup_cons] at h
    by_cases hk : k0 = k
    · subst hk
      simp only [List.mem_cons, Prod.mk.injEq, true_and, List.map_cons, true_or,
        ThresholdMap.get, if_true]
      constructor
      · rintro (h1 | h1)
        · exact h1.symm
        · exact absurd (List.mem_map_of_mem Prod.fst h1) h.1
      · intro h1
        exact Or.inl h1.symm
    · have hk' : ¬ k = k0 := fun h2 => hk h2.symm
      simp only [List.mem_cons, Prod.mk.injEq, hk', false_and, false_or, List.map_cons,
        ThresholdMap.get, hk, if_false]
      exact ih h.2

/-- The first loop of `genSLOAlertPoints`, started from an arbitrary map. -/
theorem foldl_windows_get (errorBudget : ℚ) (ws : List Window) (m : ThresholdMap)
    (k : String) :
    (ws.foldl (fun m w => m.set w.Kind (m.get w.Kind ++ [windowThreshold errorBudget w]))
        m).get k
      = m.get k ++ (ws.filter (fun w => w.Kind = k)).map (windowThreshold errorBudget) := by
  induction ws generalizing m with
  | nil => simp
  | cons w rest ih =>
    rw [List.foldl_cons, ih]
    by_cases hk : w.Kind = k
    · subst hk
      rw [get_set_same]
      simp [List.filter_cons]
    · have hk' : k ≠ w.Kind := fun h => hk h.symm
      rw [get_set_other _ _ hk']
      simp [List.filter_cons, hk]

theorem foldl_windows_keys (errorBudget : ℚ) (ws : List Window) (m : ThresholdMap)
    (k : String) :
    k ∈ (ws.foldl (fun m w => m.set w.Kind (m.get w.Kind ++ [windowThreshold errorBudget w]))
        m).map Prod.fst
      ↔ k ∈ m.map Prod.fst ∨ ∃ w ∈ ws, w.Kind = k := by
  induction ws generalizing m with
  | nil => simp
  | cons w rest ih =>
    rw [List.foldl_cons, ih, mem_keys_set]
    simp only [List.mem_cons, exists_eq_or_imp]
    constructor
    · rintro ((h | h) | h)
      · exact Or.inr (Or.inl h.symm)
      · exact Or.inl h
      · exact Or.inr (Or.inr h)
    · rintro (h | h | h)
      · exact Or.inl (Or.inr h)
      · exact Or.inl (Or.inl h.symm)
      · exact Or.inr h

theorem foldl_windows_nodup (errorBudget : ℚ) (ws : List Window) (m : ThresholdMap)
    (h : (m.map Prod.fst).Nodup) :
    ((ws.foldl (fun m w => m.set w.Kind (m.get w.Kind ++ [windowThreshold errorBudget w]))
        m).map Prod.fst).Nodup := by
  induction ws generalizing m with
  | nil => exact h
  | cons w rest ih =>
    rw [List.foldl_cons]
    exact ih _ (nodup_keys_set m _ _ h)

theorem thresholdMap_get (errorBudget : ℚ) (ws : List Window) (k : String) :
    (thresholdMap errorBudget ws).get k
      = (ws.filter (fun w => w.Kind = k)).map (windowThreshold errorBudget) := by
  unfold thresholdMap
  rw [foldl_windows_get]
  simp [ThresholdMap.get]

theorem thresholdMap_nodup (errorBudget : ℚ) (ws : List Window) :
    ((thresholdMap errorBudget ws).map Prod.fst).Nodup :=
  foldl_windows_nodup errorBudget ws [] (by simp)

theorem thresholdMap_mem (errorBudget : ℚ) (ws : List Window) (k : String)
    (ths : List ThresholdData) :
    (k, ths) ∈ thresholdMap errorBudget ws ↔
      (∃ w ∈ ws, w.Kind = k) ∧
      ths = (ws.filter (fun w => w.Kind = k)).map (windowThreshold errorBudget) := by
  rw [mem_iff_get _ (thresholdMap_nodup errorBudget ws), thresholdMap_get]
  unfold thresholdMap
  rw [foldl_windows_keys]
  simp only [List.map_nil, List.not_mem_nil, false_or]
  constructor
  · rintro ⟨h1, h2⟩
    exact ⟨h1, h2.symm⟩
  · rintro ⟨h1, h2⟩
    exact ⟨h1, h2.symm⟩

/-- Every entry of the threshold map is the threshold entry of some window. -/
theorem thresholdMap_entry (errorBudget : ℚ) (ws : List Window) :
    ∀ e ∈ thresholdMap errorBudget ws, ∀ th ∈ e.2,
      ∃ w ∈ ws, w.Kind = e.1 ∧ th = windowThreshold errorBudget w := by
  rintro ⟨k, ths⟩ he th hth
  obtain ⟨_, h2⟩ := (thresholdMap_mem errorBudget ws k ths).1 he
  simp only at hth
  rw [h2, List.mem_map] at hth
  obtain ⟨w, hw, rfl⟩ := hth
  rw [List.mem_filter] at hw
  exact ⟨w, hw.1, of_decide_eq_true hw.2, rfl⟩

theorem detect_perm {m m' : ThresholdMap} {x : ℚ} (hx : 0 < x)
    (hT : ∀ e ∈ m, ∀ th ∈ e.2, 0 < th.ErrorThreshold) (hties : noCrossClassTie m x)
    (hperm : m'.Perm m) :
    detectionTimeForErrorRate m' x = detectionTimeForErrorRate m x := by
  have hT' : ∀ e ∈ m', ∀ th ∈ e.2, 0 < th.ErrorThreshold :=
    fun e he => hT e (hperm.mem_iff.1 he)
  have hmem : ∀ c, c ∈ entriesOf m' ↔ c ∈ entriesOf m := fun c => (entriesOf_perm hperm).mem_iff
  rcases detect_spec m x (entries_pos hx hT) with
    ⟨hnone, hr⟩ | ⟨⟨c, hc, hacc, hr⟩, hmin⟩
  · rcases detect_spec m' x (entries_pos hx hT') with
      ⟨_, hr'⟩ | ⟨⟨c', hc', hacc', _⟩, _⟩
    · rw [hr, hr']
    · exact absurd hacc' (hnone c' ((hmem c').1 hc'))
  · rcases detect_spec m' x (entries_pos hx hT') with
      ⟨hnone', _⟩ | ⟨⟨c', hc', hacc', hr'⟩, hmin'⟩
    · exact absurd hacc (hnone' c ((hmem c).2 hc))
    · have h1 := hmin c' ((hmem c').1 hc') hacc'
      have h2 := hmin' c ((hmem c).2 hc) hacc
      rw [hr] at h1
      rw [hr'] at h2
      have hv : candidate x c'.2 = candidate x c.2 := le_antisymm h2 h1
      obtain ⟨e, he, hek, heth⟩ := mem_entriesOf.1 hc
      obtain ⟨e', he', hek', heth'⟩ := mem_entriesOf.1 ((hmem c').1 hc')
      have hk : e'.1 = e.1 := hties e' he' e he c'.2 heth' c.2 heth hacc' hacc hv
      rw [hr, hr', hv, ← hek, ← hek', hk]

theorem sampleStep_congr {m m' : ThresholdMap} {i : Nat}
    (h : detectionTimeForErrorRate m (sampleX i) = detectionTimeForErrorRate m' (sampleX i))
    (acc : List (ℚ × ℚ) × List (ℚ × ℚ)) : sampleStep m i acc = sampleStep m' i acc := by
  simp only [sampleStep, h]

theorem foldl_sampleStep_congr (ms ms' : Nat → ThresholdMap) (l : List Nat)
    (h : ∀ i ∈ l, detectionTimeForErrorRate (ms i) (sampleX i)
      = detectionTimeForErrorRate (ms' i) (sampleX i))
    (acc : List (ℚ × ℚ) × List (ℚ × ℚ)) :
    l.foldl (fun acc i => sampleStep (ms i) i acc) acc
      = l.foldl (fun acc i => sampleStep (ms' i) i acc) acc := by
  induction l generalizing acc with
  | nil => rfl
  | cons i rest ih =>
    rw [List.foldl_cons, List.foldl_cons, sampleStep_congr (h i (by simp)),
      ih (fun j hj => h j (List.mem_cons_of_mem _ hj))]

theorem genSLOAlertPoints_order {iter iter' : Nat → ThresholdMap → ThresholdMap}
    {errorBudget : ℚ} {windows : List Window}
    (hiter : ∀ i mm, (iter i mm).Perm mm) (hiter' : ∀ i mm, (iter' i mm).Perm mm)
    (hT : ∀ e ∈ thresholdMap errorBudget windows, ∀ th ∈ e.2, 0 < th.ErrorThreshold)
    (hties : ∀ i, i < n → noCrossClassTie (thresholdMap errorBudget windows) (sampleX i)) :
    genSLOAlertPoints iter errorBudget windows
      = genSLOAlertPoints iter' errorBudget windows := by
  unfold genSLOAlertPoints
  apply foldl_sampleStep_congr
  intro i hi
  have hi' : i < n := List.mem_range.1 hi
  rw [detect_perm (sampleX_pos i) hT (hties i hi') (hiter i _),
    detect_perm (sampleX_pos i) hT (hties i hi') (hiter' i _)]

theorem referenceMap_eq :
    referenceMap =
      [("page", [⟨144 / 10000, 1⟩, ⟨36 / 1000, 6⟩]),
       ("ticket", [⟨72 / 1000, 24⟩, ⟨72 / 1000, 72⟩])] := by
  decide!

theorem reference_pos : ∀ e ∈ referenceMap, ∀ th ∈ e.2, 0 < th.ErrorThreshold := by
  decide!

theorem reference_noCrossClassTie {x : ℚ} (hx : 0 < x) : noCrossClassTie referenceMap x := by
  have key : ∀ a b : ℚ, a ≠ b → a / x = b / x → False := by
    intro a b hab h
    exact hab ((div_left_inj' (ne_of_gt hx)).1 h)
  intro e1 he1 e2 he2 t1 ht1 t2 ht2 _ _ hv
  rw [referenceMap_eq] at he1 he2
  simp only [List.mem_cons, List.mem_singleton, List.not_mem_nil, or_false] at he1 he2
  rcases he1 with rfl | rfl <;> rcases he2 with rfl | rfl
  · rfl
  · exfalso
    simp only [List.mem_cons, List.mem_singleton, List.not_mem_nil, or_false] at ht1 ht2
    rcases ht1 with rfl | rfl <;> rcases ht2 with rfl | rfl <;>
      exact key _ _ (by norm_num) hv
  · exfalso
    simp only [List.mem_cons, List.mem_singleton, List.not_mem_nil, or_false] at ht1 ht2
    rcases ht1 with rfl | rfl <;> rcases ht2 with rfl | rfl <;>
      exact key _ _ (by norm_num) hv
  · rfl

theorem hour_count_pos {d : Int} (hd : 0 < d) (hh : d % Hour = 0) : 1 ≤ d.tdiv Hour := by
  have hH : Hour = 3600000000000 := by decide
  rw [Int.tdiv_eq_ediv (le_of_lt hd) (by decide)]
  rw [hH] at hh ⊢
  omega

theorem windowThreshold_pos {errorBudget : ℚ} {w : Window} (heb : 0 < errorBudget)
    (hb : 0 < w.BurnRate) (hd : 0 < w.Duration) (hh : w.Duration % Hour = 0) :
    0 < (windowThreshold errorBudget w).ErrorThreshold := by
  have h1 : (1 : ℚ) ≤ ((w.Duration.tdiv Hour : Int) : ℚ) := by
    exact_mod_cast hour_count_pos hd hh
  have h2 : (0 : ℚ) < ((w.Duration.tdiv Hour : Int) : ℚ) := lt_of_lt_of_le one_pos h1
  exact mul_pos (mul_pos hb heb) h2

theorem thresholdMap_pos {errorBudget : ℚ} {windows : List Window} (heb : 0 < errorBudget)
    (hws : ∀ w ∈ windows, 0 < w.BurnRate ∧ 0 < w.Duration ∧ w.Duration % Hour = 0) :
    ∀ e ∈ thresholdMap errorBudget windows, ∀ th ∈ e.2, 0 < th.ErrorThreshold := by
  intro e he th hth
  obtain ⟨w, hw, _, rfl⟩ := thresholdMap_entry errorBudget windows e he th hth
  obtain ⟨hb, hd, hh⟩ := hws w hw
  exact windowThreshold_pos heb hb hd hh

theorem accepted_mono {x y : ℚ} {th : ThresholdData} (hx : 0 < x) (hxy : x < y)
    (hT : 0 < th.ErrorThreshold) (h : accepted x th) :
    accepted y th ∧ candidate y th < candidate x th := by
  have hlt : candidate y th < candidate x th := div_lt_div_of_pos_left hT hx hxy
  exact ⟨le_trans (le_of_lt hlt) h, hlt⟩

/-- A positive returned value means that some candidate was accepted. -/
theorem detect_pos_iff {m m1 : ThresholdMap} {x : ℚ} (hx : 0 < x)
    (hT : ∀ e ∈ m, ∀ th ∈ e.2, 0 < th.ErrorThreshold) (h1 : m1.Perm m) :
    0 < (detectionTimeForErrorRate m1 x).2 ↔ ∃ e ∈ m, ∃ th ∈ e.2, accepted x th := by
  have hT1 : ∀ e ∈ m1, ∀ th ∈ e.2, 0 < th.ErrorThreshold :=
    fun e he => hT e (h1.mem_iff.1 he)
  rcases detect_spec m1 x (entries_pos hx hT1) with
    ⟨hnone, hr⟩ | ⟨⟨c, hc, hacc, hr⟩, _⟩
  · rw [hr]
    constructor
    · intro h
      exact absurd h (lt_irrefl _)
    · rintro ⟨e, he, th, hth, hacc⟩
      exact absurd hacc (hnone (e.1, th) (mem_entriesOf.2 ⟨e, h1.mem_iff.2 he, rfl, hth⟩))
  · rw [hr]
    obtain ⟨e, he, _, hth⟩ := mem_entriesOf.1 hc
    constructor
    · intro _
      exact ⟨e, h1.mem_iff.1 he, c.2, hth, hacc⟩
    · intro _
      exact candidate_pos hx (hT1 e he c.2 hth)

/-- A non-empty returned class means that the returned value is positive. -/
theorem detect_pos_of_kind {m : ThresholdMap} {x : ℚ} (hx : 0 < x)
    (hT : ∀ e ∈ m, ∀ th ∈ e.2, 0 < th.ErrorThreshold)
    (hk : (detectionTimeForErrorRate m x).1 ≠ "") : 0 < (detectionTimeForErrorRate m x).2 := by
  rcases detect_spec m x (entries_pos hx hT) with ⟨_, hr⟩ | ⟨⟨c, hc, hacc, hr⟩, _⟩
  · rw [hr] at hk
    exact absurd rfl hk
  · rw [hr]
    exact entries_pos hx hT c hc hacc

/-- The returned value decreases strictly from a detected rate to any larger rate. -/
theorem detect_mono {m m1 m2 : ThresholdMap} {x y : ℚ} (hx : 0 < x) (hxy : x < y)
    (hT : ∀ e ∈ m, ∀ th ∈ e.2, 0 < th.ErrorThreshold) (h1 : m1.Perm m) (h2 : m2.Perm m)
    (hdet : 0 < (detectionTimeForErrorRate m1 x).2) :
    0 < (detectionTimeForErrorRate m2 y).2 ∧
      (detectionTimeForErrorRate m2 y).2 < (detectionTimeForErrorRate m1 x).2 := by
  have hy : 0 < y := lt_trans hx hxy
  have hT1 : ∀ e ∈ m1, ∀ th ∈ e.2, 0 < th.ErrorThreshold :=
    fun e he => hT e (h1.mem_iff.1 he)
  have hT2 : ∀ e ∈ m2, ∀ th ∈ e.2, 0 < th.ErrorThreshold :=
    fun e he => hT e (h2.mem_iff.1 he)
  rcases detect_spec m1 x (entries_pos hx hT1) with
    ⟨_, hr⟩ | ⟨⟨c, hc, hacc, hr⟩, _⟩
  · rw [hr] at hdet
    exact absurd hdet (lt_irrefl _)
  · obtain ⟨e, he, hek, hth⟩ := mem_entriesOf.1 hc
    obtain ⟨haccy, hlt⟩ := accepted_mono hx hxy (hT1 e he c.2 hth) hacc
    have hc2 : c ∈ entriesOf m2 :=
      (entriesOf_perm h2).mem_iff.2 ((entriesOf_perm h1).mem_iff.1 hc)
    rcases detect_spec m2 y (entries_pos hy hT2) with
      ⟨hnone, _⟩ | ⟨⟨c', hc', hacc', hr'⟩, hmin'⟩
    · exact absurd haccy (hnone c hc2)
    · have hle := hmin' c hc2 haccy
      refine ⟨?_, ?_⟩
      · rw [hr']
        exact entries_pos hy hT2 c' hc' hacc'
      · rw [hr]
        exact lt_of_le_of_lt hle hlt

theorem pairwise_filter_map_range {β : Type} (R : β → β → Prop) (P : Nat → Prop)
    [DecidablePred P] (pt : Nat → β)
    (h : ∀ i j, i < j → j < n → P i → P j → R (pt i) (pt j)) :
    (((List.range n).filter (fun i => decide (P i))).map pt).Pairwise R := by
  rw [List.pairwise_map, List.pairwise_filter]
  apply (List.pairwise_lt_range n).imp_of_mem
  intro a b _ hb hab hPa hPb
  exact h a b hab (List.mem_range.1 hb) hPa hPb

/-- Instance of C10: entries `(0, 1)` and `(1, 2)` of class `page` at `x = 1`. -/
theorem zero_is_unset_sentinel_witness :
    detectionTimeForErrorRate [("page", [⟨0, 1⟩, ⟨1, 2⟩])] 1 = ("page", candidate 1 ⟨1, 2⟩) ∧
    detectionTimeForErrorRate [("page", [⟨1, 2⟩, ⟨0, 1⟩])] 1 = ("page", 0) :=
  (zero_is_unset_sentinel 1 "page" ⟨0, 1⟩ ⟨1, 2⟩ (by norm_num) rfl (by norm_num)
    (by decide!) (by decide!)).2.2.2

/-- Instance of C8: the first sample is below the last one. -/
theorem sweep_schedule_witness : sampleX 0 < sampleX 999 :=
  sweep_schedule.2.2.1 0 999 (by decide) (by decide)

end SloPlot
